import Mathlib

/-!
Verification of `afdata/pattern_mining.py` against its natural-language
specification.

Shallow embedding conventions:
* an Item is a `ℕ` (the Python items are opaque comparable/hashable tokens);
* a frozenset of items is a `Finset ℕ`;
* a sequence (ordered list of itemsets) is a `List (Finset ℕ)`;
* Python's float division `count / total` is modelled exactly in `ℚ`;
* code that can raise (ZeroDivisionError, IndexError, KeyError, ValueError,
  StopIteration) is modelled in `Option`, with `none` for a raised exception.
-/

/-- Embeds `sequence_len` (pattern_mining.py:222): the total number of items
in a sequence, i.e. the sum of the sizes of its itemsets. -/
def sequence_len (s : List (Finset ℕ)) : ℕ :=
  (s.map Finset.card).sum

/-- Embeds Python's `set(fs).pop()`: returns an arbitrary element, raising
KeyError (`none`) on an empty set.  We return the minimum.  In every call
site of `is_subsequence` whose result is observable the popped set has at
most one element (the branch guards force the candidate's total item-count
to 1 resp. 2), so the arbitrary choice is exact there; when a popped set has
two or more elements the surrounding code always goes on to raise. -/
def set_pop (s : Finset ℕ) : Option ℕ :=
  if h : s.Nonempty then some (s.min' h) else none

/-- Embeds `is_subsequence` (pattern_mining.py:33-73).  The Python function
dispatches on `sequence_len(candidate)` (total item-count):
* total 1: pops the single item out of `candidate[0]` (KeyError if that
  itemset is empty) and scans for it anywhere in the sequence;
* total 2: pops an item out of `candidate[0]` and out of `candidate[1]`
  (IndexError if the candidate has fewer than two positions, KeyError on an
  empty position) and scans for the two items at adjacent positions;
* otherwise: scans every anchor `i`, requiring `candidate[0] ⊆ sequence[i]`,
  the tail to fit in the remaining length, and each tail itemset to be a
  subset of the itemset at the corresponding following position
  (`candidate[0]` raises IndexError when the candidate is empty and the
  sequence is not, since it is evaluated inside the loop). -/
def is_subsequence (sequence candidate : List (Finset ℕ)) : Option Bool :=
  if sequence_len candidate = 1 then
    match candidate with
    | [] => none
    | c0 :: _ =>
      match set_pop c0 with
      | none => none
      | some item =>
        some (sequence.any fun itemset => decide (item ∈ itemset))
  else if sequence_len candidate = 2 then
    match candidate with
    | [] => none
    | c0 :: ctail =>
      match set_pop c0 with
      | none => none
      | some item1 =>
        match ctail with
        | [] => none
        | c1 :: _ =>
          match set_pop c1 with
          | none => none
          | some item2 =>
            some ((List.range sequence.length).any fun i =>
              decide (item1 ∈ sequence.getD i ∅) &&
              (decide (i + 1 < sequence.length) &&
               decide (item2 ∈ sequence.getD (i + 1) ∅)))
  else
    match candidate with
    | [] => if sequence.isEmpty then some false else none
    | c0 :: ctail =>
      some ((List.range sequence.length).any fun i =>
        decide (c0 ⊆ sequence.getD i ∅) &&
        (!decide (ctail.length > sequence.length - i - 1) &&
         (List.range ctail.length).all fun j =>
           decide (ctail.getD j ∅ ⊆ sequence.getD (i + (j + 1)) ∅)))

/-- The containment semantics claimed by the spec for `is_subsequence`
(anchored, lock-step tail): there is an anchor `i` with
`candidate[0] ⊆ sequence[i]` and, for every tail offset `j`, position
`i+1+j` exists in the sequence and `candidate[1+j] ⊆ sequence[i+1+j]`. -/
def subseq_spec (sequence : List (Finset ℕ)) (c0 : Finset ℕ)
    (ctail : List (Finset ℕ)) : Prop :=
  ∃ i, i < sequence.length ∧ c0 ⊆ sequence.getD i ∅ ∧
    ∀ j, j < ctail.length →
      i + 1 + j < sequence.length ∧ ctail.getD j ∅ ⊆ sequence.getD (i + 1 + j) ∅

/-- Auxiliary for `dedupFirst`: drops elements already seen. -/
def dedupFirstAux [DecidableEq α] (seen : List α) : List α → List α
  | [] => []
  | x :: xs =>
    if x ∈ seen then dedupFirstAux seen xs
    else x :: dedupFirstAux (x :: seen) xs

/-- The distinct elements of a list, in first-occurrence order: exactly the
key order of a Python dict populated by one assignment per list element. -/
def dedupFirst [DecidableEq α] (l : List α) : List α :=
  dedupFirstAux [] l

/-- Embeds `support` (pattern_mining.py:6-30).  The returned dict has one key
per distinct itemset of the input list, in first-occurrence order; each key's
count is incremented once per occurrence of the key in the input list and per
containing transaction, then divided by `len(transactions)`.  When the corpus
is empty and at least one key exists, the first division raises
ZeroDivisionError (`none`); with no candidates the empty dict is returned
without any division. -/
def support (transactions : List (Finset ℕ)) (itemsets : List (Finset ℕ)) :
    Option (List (Finset ℕ × ℚ)) :=
  if transactions = [] ∧ itemsets ≠ [] then none
  else
    some ((dedupFirst itemsets).map fun s =>
      (s, (((itemsets.countP fun s2 => decide (s2 = s)) *
              transactions.countP fun tr => decide (s ⊆ tr) : ℕ) : ℚ) /
            (transactions.length : ℚ)))

/-- The spec-level Support of one itemset: fraction of transactions that
contain it (`0/0 = 0` never arises where this is used with a non-empty
corpus). -/
def support_frac (transactions : List (Finset ℕ)) (s : Finset ℕ) : ℚ :=
  ((transactions.countP fun tr => decide (s ⊆ tr) : ℕ) : ℚ) /
    (transactions.length : ℚ)

/-- Embeds `confidence` (pattern_mining.py:102-122): looks up the support of
`itemset_a`; returns `0` if it is zero, otherwise the support of the union
divided by it. -/
def confidence (transactions : List (Finset ℕ)) (a b : Finset ℕ) : Option ℚ :=
  match support transactions [a] with
  | none => none
  | some entries_a =>
    match entries_a.lookup a with
    | none => none
    | some sa =>
      if sa = 0 then some 0
      else
        match support transactions [a ∪ b] with
        | none => none
        | some entries_u =>
          match entries_u.lookup (a ∪ b) with
          | none => none
          | some su => some (su / sa)

/-- Embeds `sequence_support` (pattern_mining.py:76-99).  One dict key per
distinct candidate, in first-occurrence order; a key is incremented once per
occurrence of the candidate in the input list and per transaction for which
`is_subsequence` returns true.  NOTE: the Python function computes
`total_transactions = len(transactions)` but never uses it — the returned
values are the raw counts, not counts divided by the corpus size.  A crash
inside `is_subsequence` aborts the whole call (`none`). -/
def sequence_support (transactions : List (List (Finset ℕ)))
    (sequences : List (List (Finset ℕ))) :
    Option (List (List (Finset ℕ) × ℕ)) :=
  if transactions.all fun tr => sequences.all fun c =>
      (is_subsequence tr c).isSome then
    some ((dedupFirst sequences).map fun c =>
      (c, (sequences.countP fun c2 => decide (c2 = c)) *
            (transactions.countP fun tr => is_subsequence tr c = some true)))
  else none

/-- The number of transactions a candidate sequence occurs in, according to
`is_subsequence` (each transaction contributes at most 1). -/
def seq_match_count (transactions : List (List (Finset ℕ)))
    (c : List (Finset ℕ)) : ℕ :=
  transactions.countP fun tr => is_subsequence tr c = some true

example : is_subsequence [{0}] [({0} : Finset ℕ), ∅] = some true := by decide
example : is_subsequence [{0}, {1}] [({0} : Finset ℕ), {1}] = some true := by
  decide
example : is_subsequence [{0}, {2}] [({0} : Finset ℕ), {1}] = some false := by
  decide
example : is_subsequence [{0, 1}] [({0, 1} : Finset ℕ)] = none := by decide
example :
    is_subsequence [{0}, {1}, {2}] [({0} : Finset ℕ), {1}, {2}] = some true := by
  decide
example : support [{0}, {1}] [{0}] = some [({0}, 1 / 2)] := by
  simp [support, dedupFirst, dedupFirstAux]
example : support [] [({0} : Finset ℕ)] = none := by decide
example : confidence [{0}, {0, 1}] {0} {1} = some (1 / 2) := by
  simp [confidence, support, dedupFirst, dedupFirstAux, List.lookup]
  rw [show (List.countP (fun tr => decide ({0} ∪ {1} ⊆ tr)) [{0}, {0, 1}]) = 1
    by decide]
  norm_num
example : sequence_support [[{0}], [{0}]] [[{0}]] = some [([{0}], 2)] := by
  decide

/-- The item universe of an itemset corpus (`all_items` accumulated by union
over the transactions, pattern_mining.py:155-157). -/
def corpus_items (transactions : List (Finset ℕ)) : Finset ℕ :=
  transactions.foldl (· ∪ ·) ∅

/-- The candidate-generation universe of `get_frequent_length_k_itemsets`
(pattern_mining.py:151-157): the union of the given frequent sub-itemsets
when that (Python-truthy, i.e. non-empty) collection is provided, else all
items of the corpus. -/
def apriori_universe (transactions : List (Finset ℕ))
    (fsi : Finset (Finset ℕ)) : Finset ℕ :=
  if fsi.Nonempty then fsi.sup id else corpus_items transactions

/-- `all_length_k_itemsets` (pattern_mining.py:158-160): every size-`k`
combination of universe items.  `itertools.product(all_items, repeat=k)`
followed by `frozenset` and the `len == k` filter yields exactly the
`k`-element subsets of the universe. -/
def candidate_itemsets (univ : Finset ℕ) (k : ℕ) : Finset (Finset ℕ) :=
  univ.powerset.filter fun s => s.card = k

/-- `pruned_length_k_itemsets` (pattern_mining.py:161-172): when a non-empty
collection of frequent sub-itemsets is given, keep only candidates having at
least one of them as a subset. -/
def pruned_itemsets (transactions : List (Finset ℕ))
    (fsi : Finset (Finset ℕ)) (k : ℕ) : Finset (Finset ℕ) :=
  let cands := candidate_itemsets (apriori_universe transactions fsi) k
  if fsi.Nonempty then cands.filter fun s => ∃ f ∈ fsi, f ⊆ s else cands

/-- Embeds `get_frequent_length_k_itemsets` (pattern_mining.py:125-180).
`none` models the ValueError raised for `min_support ∉ (0,1]` or `k ≤ 0`,
and the ZeroDivisionError raised inside `support` when the corpus is empty
but at least one candidate survives pruning.  The Python function returns
the frequent itemsets and their supports as two parallel lists whose order
is the (unspecified) iteration order of a Python set; the embedding returns
the set of frequent itemsets, each support being recoverable as
`support_frac`, so that only the order — on which no claim depends — is
abstracted. -/
def get_frequent_length_k_itemsets (transactions : List (Finset ℕ))
    (min_support : ℚ) (k : ℕ) (fsi : Finset (Finset ℕ)) :
    Option (Finset (Finset ℕ)) :=
  if min_support ≤ 0 ∨ 1 < min_support then none
  else if k = 0 then none
  else if transactions = [] ∧ (pruned_itemsets transactions fsi k).Nonempty
  then none
  else
    some ((pruned_itemsets transactions fsi k).filter fun s =>
      min_support ≤ support_frac transactions s)

/-- The `while` loop of `get_frequent_itemsets` (pattern_mining.py:209-218),
written with explicit fuel: while the last level is non-empty, mine level
`k+1` seeded with the last level and accumulate.  The Python loop has no
fuel; `apriori_loop_fuel_stable` below shows the fuel passed by
`get_frequent_itemsets` is enough for the two to agree. -/
def apriori_loop (transactions : List (Finset ℕ)) (min_support : ℚ) :
    ℕ → ℕ → Finset (Finset ℕ) → Finset (Finset ℕ) →
    Option (Finset (Finset ℕ))
  | 0, _, _, acc => some acc
  | fuel + 1, k, level, acc =>
    if level = ∅ then some acc
    else
      match get_frequent_length_k_itemsets transactions min_support (k + 1)
          level with
      | none => none
      | some next =>
        apriori_loop transactions min_support fuel (k + 1) next (acc ∪ next)

/-- Embeds `get_frequent_itemsets` (pattern_mining.py:183-219): level 1 with
no sub-itemsets, then the accumulation loop.  The result is the set of all
frequent itemsets across levels. -/
def get_frequent_itemsets (transactions : List (Finset ℕ))
    (min_support : ℚ) : Option (Finset (Finset ℕ)) :=
  match get_frequent_length_k_itemsets transactions min_support 1 ∅ with
  | none => none
  | some level1 =>
    apriori_loop transactions min_support ((corpus_items transactions).card + 1)
      1 level1 level1

/-- Embeds `generate_candidate_sequences` (pattern_mining.py:239-267).
`next(iter(...))` on an empty frozenset raises StopIteration (`none`); a
length mismatch against the sampled example raises ValueError (`none`),
which is equivalent to some two members having different total item-counts.
The produced candidates are all concatenations of ordered pairs of distinct
members.  The merging of single items into one itemset
(pattern_mining.py:260-266) is commented out in the source and therefore
absent here. -/
def generate_candidate_sequences (length_k_sequences : Finset (List (Finset ℕ))) :
    Option (Finset (List (Finset ℕ))) :=
  if length_k_sequences = ∅ then none
  else if ∃ s ∈ length_k_sequences, ∃ u ∈ length_k_sequences,
      sequence_len s ≠ sequence_len u then none
  else
    some (length_k_sequences.biUnion fun s =>
      (length_k_sequences.erase s).image fun u => s ++ u)

/-- The item universe of a sequence corpus (pattern_mining.py:292-295):
union over every itemset of every transaction, in order. -/
def seq_corpus_items (transactions : List (List (Finset ℕ))) : Finset ℕ :=
  transactions.foldl (fun acc tr => tr.foldl (· ∪ ·) acc) ∅

/-- Embeds `get_frequent_length_k_sequences` (pattern_mining.py:270-306).
The `min_support`, `k` and `frequent_sub_sequences` parameters are accepted
but never read by the body: it always scores the single-item sequences of
the corpus with `sequence_support` and keeps those whose value (a raw count,
see `sequence_support`) is at least the hardcoded `0.2`.  The Python items
set is iterated in unspecified order; the embedding fixes ascending order,
which no claim depends on. -/
def get_frequent_length_k_sequences (transactions : List (List (Finset ℕ)))
    (min_support : ℚ) (k : ℕ)
    (frequent_sub_sequences : Option (Finset (List (Finset ℕ)))) :
    Option (List (List (Finset ℕ)) × List ℕ) :=
  let items := (seq_corpus_items transactions).sort (· ≤ ·)
  let sequences := items.map fun item => [({item} : Finset ℕ)]
  match sequence_support transactions sequences with
  | none => none
  | some supports =>
    let frequent := supports.filter fun p => (1 : ℚ) / 5 ≤ (p.2 : ℚ)
    some (frequent.map Prod.fst, frequent.map Prod.snd)

/-- The `for i in range(m)` comparison loop of ` is_prefix`
(pattern_mining.py:351-353): compares `beta[i]` with `alpha[i]` for
`i = 0, …, m-1`, returning `some false` on the first mismatch and `none`
(IndexError) when a list runs out of positions (`beta[i]` is evaluated
first). -/
def prefix_eq_loop : List (Finset ℕ) → List (Finset ℕ) → ℕ → Option Bool
  | _, _, 0 => some true
  | [], _, _ + 1 => none
  | _ :: _, [], _ + 1 => none
  | b :: bs, a :: as_, m + 1 =>
    if b ≠ a then some false else prefix_eq_loop bs as_ m

/-- Python list indexing `l[i]` with an `int` index: negative indices count
from the end; out-of-range indices raise IndexError (`none`). -/
def py_index (l : List (Finset ℕ)) (i : ℤ) : Option (Finset ℕ) :=
  if 0 ≤ i then l.get? i.toNat
  else if (-i).toNat ≤ l.length then l.get? (l.length - (-i).toNat)
  else none

/-- Embeds ` is_prefix` (pattern_mining.py:344-358).  `n` and `m` are the
total item-counts minus one (note: the final subset test and the comparison
loop index positions, while `m` counts items).  Returns `(False, None)` when
`m > n`, on a positional mismatch among the first `m` positions, or when
`beta[m] ⊄ alpha[m]`; otherwise `(True, m)`.  `none` models IndexError from
`beta[i]`/`alpha[i]`/`beta[m]`/`alpha[m]`. -/
def is_prefix (alpha beta : List (Finset ℕ)) : Option (Bool × Option ℤ) :=
  let n : ℤ := (sequence_len alpha : ℤ) - 1
  let m : ℤ := (sequence_len beta : ℤ) - 1
  if m > n then some (false, none)
  else
    match prefix_eq_loop beta alpha m.toNat with
    | none => none
    | some false => some (false, none)
    | some true =>
      match py_index beta m with
      | none => none
      | some bm =>
        match py_index alpha m with
        | none => none
        | some am =>
          if bm ⊆ am then some (true, some m) else some (false, none)

/-- Embeds `get_suffix` (pattern_mining.py:360-366): the Python function
returns `None` (inner `none`) when ` is_prefix` fails, else the positions of
`alpha` strictly after position `m`.  The outer `none` is a crash in
` is_prefix`. -/
def get_suffix (alpha beta : List (Finset ℕ)) :
    Option (Option (List (Finset ℕ))) :=
  match is_prefix alpha beta with
  | none => none
  | some (false, _) => some none
  | some (true, none) => none
  | some (true, some m) => some (some (alpha.drop (m + 1).toNat))

/-- The inner `for i in range(0, len(transaction))` scan of
`get_projected_transactions` (pattern_mining.py:371-377), expressed on the
successive tail slices `transaction[i:]`: at the first position where the
prefix matches and the extracted suffix has a positive total item-count the
suffix is kept (`some (some s)` — the Python `break`); positions with an
item-empty suffix do not stop the scan; `some none` means the transaction
contributes nothing; `none` is a crash. -/
def project_scan (pre : List (Finset ℕ)) :
    List (Finset ℕ) → Option (Option (List (Finset ℕ)))
  | [] => some none
  | a :: rest =>
    match is_prefix (a :: rest) pre with
    | none => none
    | some (res, _) =>
      if res then
        match get_suffix (a :: rest) pre with
        | none => none
        | some none => none
        | some (some s) =>
          if 0 < sequence_len s then some (some s) else project_scan pre rest
      else project_scan pre rest

/-- Embeds `get_projected_transactions` (pattern_mining.py:368-378): for each
transaction, keep the suffix found by the scan, if any. -/
def get_projected_transactions (transactions : List (List (Finset ℕ)))
    (pre : List (Finset ℕ)) : Option (List (List (Finset ℕ))) :=
  match transactions with
  | [] => some []
  | t :: rest =>
    match project_scan pre t with
    | none => none
    | some r =>
      match get_projected_transactions rest pre with
      | none => none
      | some others =>
        some (match r with
          | some s => s :: others
          | none => others)

example :
    get_projected_transactions [[{0}, {1}, {2}]] [{0}] = some [[{1}, {2}]] := by
  decide
example : sequence_support [[{0}, {1}, {2}]] [[{0}, {2}]] =
    some [([{0}, {2}], 0)] := by decide
example : generate_candidate_sequences {[{0}], [{1}]} =
    some {[{0}, {1}], [{1}, {0}]} := by decide

/-- C1: the claim says `sequence_support` divides each candidate's count of
containing records by the corpus size.  The code computes
`total_transactions` but never divides: on the two-record corpus
`[[{0}], [{0}]]` the candidate `[{0}]` is mapped to the raw count `2`,
whereas the claimed value is `2 / 2 = 1`.  (Each record still contributes at
most 1, as the claim says.) -/
theorem C1_sequence_support_returns_raw_count :
    sequence_support [[{0}], [{0}]] [[{0}]] = some [([{0}], 2)] ∧
    ([[({0} : Finset ℕ)], [{0}]] : List (List (Finset ℕ))).length = 2 ∧
    (2 : ℚ) ≠ 2 / 2 := by
  refine ⟨by decide, by decide, by norm_num⟩

/-- C4 counterexample: with an empty candidate list, `support` on a
zero-record corpus does not fail — it silently returns the empty mapping,
because no division is ever executed.  The claim quantifies over every list
of candidate itemsets, so it is false here. -/
theorem C4_counterexample :
    support [] [] = some [] := by decide

/-- C4 (amended): for every NON-EMPTY list of candidate itemsets, calling
`support` on a corpus with zero records fails (the first per-key division
raises ZeroDivisionError) rather than returning NaN or any silent value. -/
theorem C4_empty_corpus_fails (itemsets : List (Finset ℕ)) (h : itemsets ≠ []) :
    support [] itemsets = none := by
  simp [support, h]

/-- Witness for `C4_empty_corpus_fails` at the candidate list `[{0}]`. -/
theorem C4_empty_corpus_fails_witness :
    support [] [({0} : Finset ℕ)] = none :=
  C4_empty_corpus_fails [{0}] (by decide)

/-- C5 counterexample: on the item-count-1 level `{[{0}], [{1}]}`,
`generate_candidate_sequences` produces only the two end-to-end
concatenations; the merged single-position candidate `[{0, 1}]` the claim
requires is absent (the merging block is commented out in the source). -/
theorem C5_counterexample :
    generate_candidate_sequences {[{0}], [{1}]} =
      some {[{0}, {1}], [{1}, {0}]} ∧
    [({0, 1} : Finset ℕ)] ∉ ({[{0}, {1}], [{1}, {0}]} : Finset (List (Finset ℕ))) := by
  refine ⟨by decide, by decide⟩

/-- C5 (amended): for every non-empty set of same-level input sequences of
common total item-count 1, `generate_candidate_sequences` succeeds and
produces exactly the end-to-end concatenations of every ordered pair of
distinct input sequences — and nothing else; in particular no merged
single-position 2-item candidates. -/
theorem C5_only_concatenations (seqs : Finset (List (Finset ℕ)))
    (hne : seqs.Nonempty) (hlen : ∀ s ∈ seqs, sequence_len s = 1) :
    ∃ out, generate_candidate_sequences seqs = some out ∧
      ∀ c, c ∈ out ↔ ∃ s ∈ seqs, ∃ u ∈ seqs, u ≠ s ∧ c = s ++ u := by
  have h1 : ¬ seqs = ∅ := by
    simpa [← Finset.nonempty_iff_ne_empty] using hne
  have h2 : ¬ ∃ s ∈ seqs, ∃ u ∈ seqs, sequence_len s ≠ sequence_len u := by
    push_neg
    intro s hs u hu
    rw [hlen s hs, hlen u hu]
  simp only [generate_candidate_sequences, if_neg h1, if_neg h2]
  refine ⟨_, rfl, fun c => ?_⟩
  simp only [Finset.mem_biUnion, Finset.mem_image, Finset.mem_erase]
  constructor
  · rintro ⟨s, hs, u, ⟨hne', hu⟩, rfl⟩
    exact ⟨s, hs, u, hu, hne', rfl⟩
  · rintro ⟨s, hs, u, hu, hne', rfl⟩
    exact ⟨s, hs, u, ⟨hne', hu⟩, rfl⟩

/-- Witness for `C5_only_concatenations` at the level `{[{0}], [{1}]}`. -/
theorem C5_only_concatenations_witness :
    ∃ out, generate_candidate_sequences {[{0}], [{1}]} = some out ∧
      ∀ c, c ∈ out ↔ ∃ s ∈ ({[{0}], [{1}]} : Finset (List (Finset ℕ))),
        ∃ u ∈ ({[{0}], [{1}]} : Finset (List (Finset ℕ))), u ≠ s ∧ c = s ++ u :=
  C5_only_concatenations {[{0}], [{1}]} (by decide) (by decide)

/-- C2 counterexample: for the sequence `[{0}]` and the non-empty candidate
`({0}, ∅)` (total item-count 1), the claimed semantics demand a tail
position for the empty itemset, which does not exist — so the claim says
`false` — but the code's total-item-count-1 special case only scans for the
single item `0` anywhere and returns `true`. -/
theorem C2_counterexample :
    is_subsequence [{0}] [({0} : Finset ℕ), ∅] = some true ∧
    ¬ subseq_spec [{0}] {0} [∅] := by
  refine ⟨by decide, ?_⟩
  rintro ⟨i, hi, -, hall⟩
  simpa using (hall 0 (by simp)).1

/-- C2 (amended): the claimed anchored, lock-step containment semantics of
`is_subsequence` holds for every sequence and every non-empty candidate
whose TOTAL ITEM-COUNT is neither 1 nor 2; the code special-cases those two
totals with single-item assumptions that break the claimed semantics
(e.g. the counterexample above).  On the general branch the function is
total, a failed tail check at one anchor does not abort the search, and an
empty candidate itemset is a subset of anything at its required position. -/
theorem C2_is_subsequence_semantics (s : List (Finset ℕ)) (c0 : Finset ℕ)
    (ct : List (Finset ℕ)) (h1 : sequence_len (c0 :: ct) ≠ 1)
    (h2 : sequence_len (c0 :: ct) ≠ 2) :
    (is_subsequence s (c0 :: ct)).isSome ∧
    (is_subsequence s (c0 :: ct) = some true ↔ subseq_spec s c0 ct) := by
  have e : is_subsequence s (c0 :: ct) =
      some ((List.range s.length).any fun i =>
        decide (c0 ⊆ s.getD i ∅) &&
        (!decide (ct.length > s.length - i - 1) &&
         (List.range ct.length).all fun j =>
           decide (ct.getD j ∅ ⊆ s.getD (i + (j + 1)) ∅))) := by
    simp only [is_subsequence, if_neg h1, if_neg h2]
  rw [e]
  refine ⟨rfl, ?_⟩
  rw [Option.some_inj]
  simp only [List.any_eq_true, List.all_eq_true, List.mem_range,
    Bool.and_eq_true, Bool.not_eq_true', decide_eq_true_eq,
    decide_eq_false_iff_not, subseq_spec]
  constructor
  · rintro ⟨i, hi, hc0, hfit, htail⟩
    refine ⟨i, hi, hc0, fun j hj => ?_⟩
    have hjlt : i + 1 + j < s.length := by omega
    have := htail j hj
    constructor
    · exact hjlt
    · have harith : i + (j + 1) = i + 1 + j := by omega
      rwa [harith] at this
  · rintro ⟨i, hi, hc0, htail⟩
    refine ⟨i, hi, hc0, ?_, fun j hj => ?_⟩
    · by_cases hct : ct.length = 0
      · omega
      · have := (htail (ct.length - 1) (by omega)).1
        omega
    · have := (htail j hj).2
      have harith : i + (j + 1) = i + 1 + j := by omega
      rwa [harith]

/-- Witness for `C2_is_subsequence_semantics`: a candidate of total
item-count 3 matched inside a three-position sequence. -/
theorem C2_is_subsequence_semantics_witness :
    (is_subsequence [{0}, {1}, {2}] [({0} : Finset ℕ), {1}, {2}]).isSome ∧
    (is_subsequence [{0}, {1}, {2}] [({0} : Finset ℕ), {1}, {2}] = some true ↔
      subseq_spec [{0}, {1}, {2}] {0} [{1}, {2}]) :=
  C2_is_subsequence_semantics [{0}, {1}, {2}] {0} [{1}, {2}]
    (by decide) (by decide)

/-- On a non-empty corpus, `support` maps a single candidate to the
spec-level Support fraction. -/
theorem support_single (t : List (Finset ℕ)) (ht : t ≠ []) (s : Finset ℕ) :
    support t [s] = some [(s, support_frac t s)] := by
  simp [support, ht, dedupFirst, dedupFirstAux, support_frac]

/-- C9: on every non-empty corpus, `confidence` returns
`Support(A ∪ B) / Support(A)` when `Support(A) ≠ 0` and exactly `0` when
`Support(A) = 0`, without failing; the zero case does not depend on `B`. -/
theorem C9_confidence_ratio (t : List (Finset ℕ)) (a b : Finset ℕ)
    (ht : t ≠ []) :
    confidence t a b =
      some (if support_frac t a = 0 then 0
            else support_frac t (a ∪ b) / support_frac t a) := by
  rw [confidence, support_single t ht a, support_single t ht (a ∪ b)]
  simp only [List.lookup, beq_self_eq_true, cond_true]
  split_ifs with h
  · rfl
  · rfl

/-- Witness for `C9_confidence_ratio` on the one-record corpus `[{0}]`. -/
theorem C9_confidence_ratio_witness :
    confidence [{0}] {0} {1} =
      some (if support_frac [{0}] {0} = 0 then 0
            else support_frac [{0}] ({0} ∪ {1}) / support_frac [{0}] {0}) :=
  C9_confidence_ratio [{0}] {0} {1} (by decide)

/-- Membership in the pruned candidate set: a size-`k` subset of the
universe that, when frequent sub-itemsets are provided, has at least one of
them as a subset. -/
theorem mem_pruned_itemsets (t : List (Finset ℕ)) (fsi : Finset (Finset ℕ))
    (k : ℕ) (S : Finset ℕ) :
    S ∈ pruned_itemsets t fsi k ↔
      (S ⊆ apriori_universe t fsi ∧ S.card = k) ∧
      (fsi.Nonempty → ∃ f ∈ fsi, f ⊆ S) := by
  by_cases h : fsi.Nonempty
  · simp [pruned_itemsets, candidate_itemsets, h, Finset.mem_filter,
      Finset.mem_powerset, and_assoc]
  · simp [pruned_itemsets, candidate_itemsets, h, Finset.mem_filter,
      Finset.mem_powerset]

/-- When `get_frequent_length_k_itemsets` succeeds, its members are exactly
the pruned candidates whose support meets the threshold. -/
theorem get_freq_k_mem (t : List (Finset ℕ)) (ms : ℚ) (k : ℕ)
    (fsi : Finset (Finset ℕ)) (out : Finset (Finset ℕ))
    (h : get_frequent_length_k_itemsets t ms k fsi = some out) (S : Finset ℕ) :
    S ∈ out ↔ S ∈ pruned_itemsets t fsi k ∧ ms ≤ support_frac t S := by
  unfold get_frequent_length_k_itemsets at h
  split_ifs at h
  all_goals first
    | exact Option.noConfusion h
    | rw [← Option.some.inj h, Finset.mem_filter]

/-- Support is anti-monotone in the itemset. -/
theorem support_frac_anti (t : List (Finset ℕ)) {A B : Finset ℕ}
    (h : A ⊆ B) : support_frac t B ≤ support_frac t A := by
  unfold support_frac
  rcases Nat.eq_zero_or_pos t.length with h0 | h0
  · simp [h0]
  · have hlen : (0 : ℚ) < (t.length : ℚ) := by exact_mod_cast h0
    rw [div_le_div_iff_of_pos_right hlen]
    have : (t.countP fun tr => decide (B ⊆ tr)) ≤
        t.countP fun tr => decide (A ⊆ tr) := by
      apply List.countP_mono_left
      intro tr _ htr
      simp only [decide_eq_true_eq] at htr ⊢
      exact h.trans htr
    exact_mod_cast this

/-- If every provided frequent sub-itemset is made of corpus items, so is
the candidate-generation universe. -/
theorem apriori_universe_subset (t : List (Finset ℕ))
    (fsi : Finset (Finset ℕ)) (h : ∀ f ∈ fsi, f ⊆ corpus_items t) :
    apriori_universe t fsi ⊆ corpus_items t := by
  unfold apriori_universe
  split_ifs with hne
  · exact Finset.sup_le fun f hf => h f hf
  · exact subset_refl _

/-- Every member of a successful `get_frequent_length_k_itemsets` level is
built from corpus items and meets the threshold, provided the seed level
was built from corpus items. -/
theorem get_freq_k_level_prop (t : List (Finset ℕ)) (ms : ℚ) (k : ℕ)
    (fsi : Finset (Finset ℕ)) (out : Finset (Finset ℕ))
    (hfsi : ∀ f ∈ fsi, f ⊆ corpus_items t)
    (h : get_frequent_length_k_itemsets t ms k fsi = some out) :
    ∀ S ∈ out, S ⊆ corpus_items t ∧ ms ≤ support_frac t S := by
  intro S hS
  rw [get_freq_k_mem t ms k fsi out h, mem_pruned_itemsets] at hS
  exact ⟨hS.1.1.1.trans (apriori_universe_subset t fsi hfsi), hS.2⟩

/-- The accumulator only grows across `apriori_loop`. -/
theorem apriori_loop_acc_subset (t : List (Finset ℕ)) (ms : ℚ) :
    ∀ (fuel k : ℕ) (level acc out : Finset (Finset ℕ)),
      apriori_loop t ms fuel k level acc = some out → acc ⊆ out := by
  intro fuel
  induction fuel with
  | zero =>
    intro k level acc out h
    obtain rfl : acc = out := by simpa [apriori_loop] using h
    exact subset_refl _
  | succ n ih =>
    intro k level acc out h
    rw [apriori_loop] at h
    split_ifs at h with hl
    · obtain rfl : acc = out := by simpa using h
      exact subset_refl _
    · cases hg : get_frequent_length_k_itemsets t ms (k + 1) level with
      | none => rw [hg] at h; exact Option.noConfusion h
      | some next =>
        rw [hg] at h
        exact Finset.subset_union_left.trans (ih _ _ _ _ h)

/-- A property preserved by every mined level is preserved by the loop. -/
theorem apriori_loop_inv (t : List (Finset ℕ)) (ms : ℚ)
    (P : Finset ℕ → Prop)
    (hstep : ∀ (k : ℕ) (fsi out : Finset (Finset ℕ)), (∀ S ∈ fsi, P S) →
      get_frequent_length_k_itemsets t ms k fsi = some out → ∀ S ∈ out, P S) :
    ∀ (fuel k : ℕ) (level acc out : Finset (Finset ℕ)),
      (∀ S ∈ level, P S) → (∀ S ∈ acc, P S) →
      apriori_loop t ms fuel k level acc = some out → ∀ S ∈ out, P S := by
  intro fuel
  induction fuel with
  | zero =>
    intro k level acc out _ hacc h
    obtain rfl : acc = out := by simpa [apriori_loop] using h
    exact hacc
  | succ n ih =>
    intro k level acc out hlev hacc h
    rw [apriori_loop] at h
    split_ifs at h with hl
    · obtain rfl : acc = out := by simpa using h
      exact hacc
    · cases hg : get_frequent_length_k_itemsets t ms (k + 1) level with
      | none => rw [hg] at h; exact Option.noConfusion h
      | some next =>
        rw [hg] at h
        have hnext : ∀ S ∈ next, P S := hstep (k + 1) level next hlev hg
        refine ih (k + 1) next (acc ∪ next) out hnext ?_ h
        intro S hS
        rcases Finset.mem_union.mp hS with h' | h'
        · exact hacc S h'
        · exact hnext S h'

/-- The fuel passed by `get_frequent_itemsets` is sufficient: once every
level element is a `card = k` subset of the corpus items, a level with
`k > |corpus items|` must be empty, so adding fuel beyond
`|corpus items| + 1` never changes the result.  This justifies embedding
the unbounded Python `while` loop with that fuel. -/
theorem apriori_loop_fuel_stable (t : List (Finset ℕ)) (ms : ℚ) :
    ∀ (fuel k : ℕ) (level acc : Finset (Finset ℕ)),
      (∀ S ∈ level, S.card = k ∧ S ⊆ corpus_items t) →
      (corpus_items t).card + 1 ≤ k + fuel →
      apriori_loop t ms fuel k level acc =
        apriori_loop t ms (fuel + 1) k level acc := by
  intro fuel
  induction fuel with
  | zero =>
    intro k level acc hlev hcard
    have hempty : level = ∅ := by
      by_contra hne
      obtain ⟨S, hS⟩ := Finset.nonempty_iff_ne_empty.mpr hne
      obtain ⟨hc, hsub⟩ := hlev S hS
      have := Finset.card_le_card hsub
      omega
    rw [hempty]
    simp [apriori_loop]
  | succ n ih =>
    intro k level acc hlev hcard
    by_cases hl : level = ∅
    · rw [apriori_loop, if_pos hl]
      conv_rhs => rw [apriori_loop, if_pos hl]
    · rw [apriori_loop, if_neg hl]
      conv_rhs => rw [apriori_loop, if_neg hl]
      cases hg : get_frequent_length_k_itemsets t ms (k + 1) level with
      | none => rfl
      | some next =>
        refine ih (k + 1) next (acc ∪ next) ?_ (by omega)
        intro S hS
        rw [get_freq_k_mem t ms (k + 1) level next hg, mem_pruned_itemsets] at hS
        refine ⟨hS.1.1.2, hS.1.1.1.trans ?_⟩
        exact apriori_universe_subset t level fun f hf => (hlev f hf).2

/-- Unfolding lemma for one `while`-iteration of `apriori_loop`. -/
theorem apriori_loop_succ (t : List (Finset ℕ)) (ms : ℚ) (fuel k : ℕ)
    (level acc : Finset (Finset ℕ)) :
    apriori_loop t ms (fuel + 1) k level acc =
      if level = ∅ then some acc
      else
        match get_frequent_length_k_itemsets t ms (k + 1) level with
        | none => none
        | some next => apriori_loop t ms fuel (k + 1) next (acc ∪ next) := by
  rw [apriori_loop]

/-- C6: for a provided non-empty set of previous-level frequent
sub-itemsets, a size-`k` candidate (drawn, as all candidates are, from the
union universe of those sub-itemsets) is scored iff AT LEAST ONE member of
the provided set is a subset of it, and it enters the result iff it is
additionally supported at `min_support`. -/
theorem C6_superset_of_at_least_one (t : List (Finset ℕ)) (ms : ℚ) (k : ℕ)
    (fsi : Finset (Finset ℕ)) (hf : fsi.Nonempty) (S : Finset ℕ)
    (hcard : S.card = k) (huniv : S ⊆ apriori_universe t fsi) :
    (S ∈ pruned_itemsets t fsi k ↔ ∃ f ∈ fsi, f ⊆ S) ∧
    ∀ out, get_frequent_length_k_itemsets t ms k fsi = some out →
      (S ∈ out ↔ S ∈ pruned_itemsets t fsi k ∧ ms ≤ support_frac t S) := by
  constructor
  · rw [mem_pruned_itemsets]
    constructor
    · intro h
      exact h.2 hf
    · intro h
      exact ⟨⟨huniv, hcard⟩, fun _ => h⟩
  · intro out hout
    exact get_freq_k_mem t ms k fsi out hout S

/-- Witness for `C6_superset_of_at_least_one` with corpus `[{0}]`,
sub-itemset level `{{0}}`, `k = 1`, candidate `{0}`. -/
theorem C6_superset_of_at_least_one_witness :
    (({0} : Finset ℕ) ∈ pruned_itemsets [{0}] {{0}} 1 ↔
      ∃ f ∈ ({{0}} : Finset (Finset ℕ)), f ⊆ {0}) ∧
    ∀ out, get_frequent_length_k_itemsets [{0}] (1 / 2) 1 {{0}} = some out →
      (({0} : Finset ℕ) ∈ out ↔
        ({0} : Finset ℕ) ∈ pruned_itemsets [{0}] {{0}} 1 ∧
        1 / 2 ≤ support_frac [{0}] {0}) :=
  C6_superset_of_at_least_one [{0}] (1 / 2) 1 {{0}} (by decide) {0}
    (by decide) (by decide)

/-- C7: every itemset in the final output of `get_frequent_itemsets` has
each of its individual items present in the output as a frequent
1-itemset. -/
theorem C7_items_individually_frequent (t : List (Finset ℕ)) (ms : ℚ)
    (ht : t ≠ []) (h0 : 0 < ms) (h1 : ms ≤ 1) (out : Finset (Finset ℕ))
    (hout : get_frequent_itemsets t ms = some out) (S : Finset ℕ)
    (hS : S ∈ out) (x : ℕ) (hx : x ∈ S) : {x} ∈ out := by
  unfold get_frequent_itemsets at hout
  cases hl1 : get_frequent_length_k_itemsets t ms 1 ∅ with
  | none => rw [hl1] at hout; exact Option.noConfusion hout
  | some l1 =>
    rw [hl1] at hout
    have hl1P : ∀ T ∈ l1, T ⊆ corpus_items t ∧ ms ≤ support_frac t T :=
      get_freq_k_level_prop t ms 1 ∅ l1 (by simp) hl1
    have hP : ∀ T ∈ out, T ⊆ corpus_items t ∧ ms ≤ support_frac t T := by
      refine apriori_loop_inv t ms
        (fun T => T ⊆ corpus_items t ∧ ms ≤ support_frac t T) ?_
        _ _ _ _ _ hl1P hl1P hout
      intro k fsi o hfsi ho
      exact get_freq_k_level_prop t ms k fsi o (fun f hf => (hfsi f hf).1) ho
    obtain ⟨hsub, hsupp⟩ := hP S hS
    have hxitem : {x} ∈ l1 := by
      rw [get_freq_k_mem t ms 1 ∅ l1 hl1, mem_pruned_itemsets]
      refine ⟨⟨⟨?_, Finset.card_singleton x⟩, ?_⟩, ?_⟩
      · have huniv : apriori_universe t ∅ = corpus_items t := by
          simp [apriori_universe]
        rw [huniv, Finset.singleton_subset_iff]
        exact hsub hx
      · intro hcon
        exact absurd hcon (by simp)
      · exact le_trans hsupp
          (support_frac_anti t (Finset.singleton_subset_iff.mpr hx))
    exact apriori_loop_acc_subset t ms _ _ _ _ _ hout hxitem

/-- Evaluation of the whole Apriori pipeline on the one-record corpus
`[{0}]`: for any valid threshold the output is `{{0}}`. -/
theorem get_frequent_itemsets_single_eval (ms : ℚ) (h0 : 0 < ms)
    (h1 : ms ≤ 1) : get_frequent_itemsets [{0}] ms = some {{0}} := by
  have hval : ¬(ms ≤ 0 ∨ 1 < ms) := by
    push_neg
    exact ⟨h0, h1⟩
  have hsf : support_frac [{0}] {0} = 1 := by
    simp [support_frac]
  rw [get_frequent_itemsets]
  rw [show get_frequent_length_k_itemsets [{0}] ms 1 ∅ = some {{0}} by
    rw [get_frequent_length_k_itemsets, if_neg hval]
    norm_num
    rw [show pruned_itemsets [{0}] ∅ 1 = {{0}} by decide]
    rw [Finset.filter_singleton, if_pos (by rw [hsf]; exact h1)]]
  show apriori_loop [{0}] ms ((corpus_items [{0}]).card + 1) 1 {{0}} {{0}} =
    some {{0}}
  rw [show (corpus_items [{0}]).card + 1 = 1 + 1 by decide]
  rw [apriori_loop_succ, if_neg (by decide)]
  rw [show get_frequent_length_k_itemsets [{0}] ms 2 {{0}} = some ∅ by
    rw [get_frequent_length_k_itemsets, if_neg hval]
    norm_num
    rw [show pruned_itemsets [{0}] {{0}} 2 = ∅ by decide]
    simp]
  show apriori_loop [{0}] ms (0 + 1) 2 ∅ ({{0}} ∪ ∅) = some {{0}}
  rw [apriori_loop_succ, if_pos rfl]
  simp

/-- Witness for `C7_items_individually_frequent` on the corpus `[{0}]` with
`min_support = 1/2`. -/
theorem C7_items_individually_frequent_witness :
    ({0} : Finset ℕ) ∈ ({{0}} : Finset (Finset ℕ)) :=
  C7_items_individually_frequent [{0}] (1 / 2) (by decide) (by norm_num)
    (by norm_num) {{0}} (get_frequent_itemsets_single_eval (1 / 2)
      (by norm_num) (by norm_num)) {0} (by decide) 0 (by decide)

/-- One mining step is monotone: a higher threshold over a smaller seed
level yields a subset of what a lower threshold over a larger seed level
yields. -/
theorem get_freq_k_step_mono (t : List (Finset ℕ)) (s1 s2 : ℚ)
    (h12 : s1 ≤ s2) (k : ℕ) (fsi1 fsi2 o1 o2 : Finset (Finset ℕ))
    (hsub : fsi2 ⊆ fsi1) (hne : fsi2.Nonempty)
    (H1 : get_frequent_length_k_itemsets t s1 k fsi1 = some o1)
    (H2 : get_frequent_length_k_itemsets t s2 k fsi2 = some o2) :
    o2 ⊆ o1 := by
  intro S hS
  rw [get_freq_k_mem t s2 k fsi2 o2 H2, mem_pruned_itemsets] at hS
  obtain ⟨⟨⟨hsu, hcardS⟩, hex⟩, hsupp⟩ := hS
  rw [get_freq_k_mem t s1 k fsi1 o1 H1, mem_pruned_itemsets]
  have hne1 : fsi1.Nonempty := hne.mono hsub
  refine ⟨⟨⟨hsu.trans ?_, hcardS⟩, ?_⟩, le_trans h12 hsupp⟩
  · unfold apriori_universe
    rw [if_pos hne, if_pos hne1]
    show fsi2.sup id ≤ fsi1.sup id
    exact Finset.sup_mono hsub
  · intro _
    obtain ⟨f, hf, hfs⟩ := hex hne
    exact ⟨f, hsub hf, hfs⟩

/-- The accumulation loop is monotone in the threshold (running both sides
with the same fuel). -/
theorem apriori_loop_mono (t : List (Finset ℕ)) (s1 s2 : ℚ) (h12 : s1 ≤ s2) :
    ∀ (fuel k : ℕ) (level1 level2 acc1 acc2 o1 o2 : Finset (Finset ℕ)),
      level2 ⊆ level1 → acc2 ⊆ acc1 →
      apriori_loop t s1 fuel k level1 acc1 = some o1 →
      apriori_loop t s2 fuel k level2 acc2 = some o2 → o2 ⊆ o1 := by
  intro fuel
  induction fuel with
  | zero =>
    intro k level1 level2 acc1 acc2 o1 o2 _ hacc h1 h2
    obtain rfl : acc1 = o1 := by simpa [apriori_loop] using h1
    obtain rfl : acc2 = o2 := by simpa [apriori_loop] using h2
    exact hacc
  | succ n ih =>
    intro k level1 level2 acc1 acc2 o1 o2 hlev hacc h1 h2
    have hacc1 : acc1 ⊆ o1 := apriori_loop_acc_subset t s1 _ _ _ _ _ h1
    rw [apriori_loop] at h2
    split_ifs at h2 with hl2
    · obtain rfl : acc2 = o2 := by simpa using h2
      exact hacc.trans hacc1
    · have hl1 : ¬level1 = ∅ := by
        intro h
        exact hl2 (Finset.subset_empty.mp (h ▸ hlev))
      rw [apriori_loop, if_neg hl1] at h1
      cases hg1 : get_frequent_length_k_itemsets t s1 (k + 1) level1 with
      | none => rw [hg1] at h1; exact Option.noConfusion h1
      | some n1 =>
        cases hg2 : get_frequent_length_k_itemsets t s2 (k + 1) level2 with
        | none => rw [hg2] at h2; exact Option.noConfusion h2
        | some n2 =>
          rw [hg1] at h1
          rw [hg2] at h2
          have hnsub : n2 ⊆ n1 :=
            get_freq_k_step_mono t s1 s2 h12 (k + 1) level1 level2 n1 n2 hlev
              (Finset.nonempty_iff_ne_empty.mpr hl2) hg1 hg2
          exact ih (k + 1) n1 n2 (acc1 ∪ n1) (acc2 ∪ n2) o1 o2 hnsub
            (Finset.union_subset_union hacc hnsub) h1 h2

/-- C8: raising `min_support` never adds frequent itemsets — the output of
`get_frequent_itemsets` at the higher threshold is contained in the output
at the lower threshold. -/
theorem C8_min_support_monotone (t : List (Finset ℕ)) (ht : t ≠ [])
    (s1 s2 : ℚ) (h0 : 0 < s1) (h12 : s1 ≤ s2) (h21 : s2 ≤ 1)
    (out1 out2 : Finset (Finset ℕ))
    (hr1 : get_frequent_itemsets t s1 = some out1)
    (hr2 : get_frequent_itemsets t s2 = some out2) : out2 ⊆ out1 := by
  unfold get_frequent_itemsets at hr1 hr2
  cases hl1 : get_frequent_length_k_itemsets t s1 1 ∅ with
  | none => rw [hl1] at hr1; exact Option.noConfusion hr1
  | some l1 =>
  cases hl2 : get_frequent_length_k_itemsets t s2 1 ∅ with
  | none => rw [hl2] at hr2; exact Option.noConfusion hr2
  | some l2 =>
  rw [hl1] at hr1
  rw [hl2] at hr2
  have hsub : l2 ⊆ l1 := by
    intro S hS
    rw [get_freq_k_mem t s2 1 ∅ l2 hl2] at hS
    rw [get_freq_k_mem t s1 1 ∅ l1 hl1]
    exact ⟨hS.1, le_trans h12 hS.2⟩
  exact apriori_loop_mono t s1 s2 h12 _ 1 l1 l2 l1 l2 out1 out2 hsub hsub
    hr1 hr2

/-- Witness for `C8_min_support_monotone` on the corpus `[{0}]` with
thresholds `1/2 ≤ 1`. -/
theorem C8_min_support_monotone_witness :
    ({{0}} : Finset (Finset ℕ)) ⊆ {{0}} :=
  C8_min_support_monotone [{0}] (by decide) (1 / 2) 1 (by norm_num)
    (by norm_num) (by norm_num) {{0}} {{0}}
    (get_frequent_itemsets_single_eval (1 / 2) (by norm_num) (by norm_num))
    (get_frequent_itemsets_single_eval 1 (by norm_num) (by norm_num))

/-- `is_subsequence` on a single-singleton candidate takes the
total-item-count-1 branch: it scans for the item anywhere. -/
theorem isSub_singleton (tr : List (Finset ℕ)) (x : ℕ) :
    is_subsequence tr [({x} : Finset ℕ)] =
      some (tr.any fun a => decide (x ∈ a)) := by
  simp [is_subsequence, sequence_len, set_pop]

/-- `dedupFirstAux` on a duplicate-free list disjoint from `seen` is the
identity. -/
theorem dedupFirstAux_of_nodup [DecidableEq α] :
    ∀ (l : List α) (seen : List α), l.Nodup → (∀ a ∈ l, a ∉ seen) →
      dedupFirstAux seen l = l := by
  intro l
  induction l with
  | nil => intro seen _ _; rfl
  | cons x xs ih =>
    intro seen hnd hdis
    rw [dedupFirstAux, if_neg (hdis x (by simp))]
    congr 1
    refine ih (x :: seen) (List.Nodup.of_cons hnd) ?_
    intro a ha
    simp only [List.mem_cons, not_or]
    exact ⟨fun h => (List.nodup_cons.mp hnd).1 (h ▸ ha),
      hdis a (List.mem_cons_of_mem x ha)⟩

/-- In a duplicate-free list, each member occurs exactly once. -/
theorem countP_eq_one_of_nodup [DecidableEq α] :
    ∀ (l : List α), l.Nodup → ∀ a ∈ l, (l.countP fun b => decide (b = a)) = 1 := by
  intro l
  induction l with
  | nil => intro _ a ha; exact absurd ha (List.not_mem_nil a)
  | cons x xs ih =>
    intro hnd a ha
    rw [List.countP_cons]
    rcases List.mem_cons.mp ha with rfl | ha'
    · have h0 : (xs.countP fun b => decide (b = a)) = 0 := by
        rw [List.countP_eq_zero]
        intro b hb
        simp only [decide_eq_true_eq]
        intro hba
        exact (List.nodup_cons.mp hnd).1 (hba ▸ hb)
      simp [h0]
    · have hxa : ¬x = a := by
        intro h
        exact (List.nodup_cons.mp hnd).1 (h ▸ ha')
      rw [ih (List.Nodup.of_cons hnd) a ha']
      simp [hxa]

/-- On duplicate-free candidates all of whose containment checks are
defined, `sequence_support` returns each candidate with its raw match
count. -/
theorem sequence_support_of_nodup (t : List (List (Finset ℕ)))
    (seqs : List (List (Finset ℕ))) (hnd : seqs.Nodup)
    (hdef : ∀ tr ∈ t, ∀ c ∈ seqs, (is_subsequence tr c).isSome) :
    sequence_support t seqs =
      some (seqs.map fun c => (c, seq_match_count t c)) := by
  unfold sequence_support
  rw [if_pos]
  · rw [dedupFirst, dedupFirstAux_of_nodup seqs [] hnd (by simp)]
    apply congrArg
    apply List.map_congr_left
    intro c hc
    rw [countP_eq_one_of_nodup seqs hnd c hc, one_mul]
    rfl
  · rw [List.all_eq_true]
    intro tr htr
    rw [List.all_eq_true]
    intro c hc
    exact hdef tr htr c hc

/-- C10: `get_frequent_length_k_sequences` returns the same value for any
two settings of `min_support`, `k` and `frequent_sub_sequences`, and that
value lists exactly the single-item sequences of corpus items whose
`sequence_support` value (a raw count) is at least the hardcoded `0.2`. -/
theorem C10_parameters_have_no_effect (t : List (List (Finset ℕ)))
    (ms ms' : ℚ) (k k' : ℕ)
    (fss fss' : Option (Finset (List (Finset ℕ)))) :
    get_frequent_length_k_sequences t ms k fss =
      get_frequent_length_k_sequences t ms' k' fss' ∧
    ∃ pr, get_frequent_length_k_sequences t ms k fss = some pr ∧
      ∀ c, c ∈ pr.1 ↔ ∃ x ∈ seq_corpus_items t,
        c = [({x} : Finset ℕ)] ∧
        (1 : ℚ) / 5 ≤ (seq_match_count t [{x}] : ℚ) := by
  refine ⟨rfl, ?_⟩
  have hnd : ((seq_corpus_items t).sort (· ≤ ·)).Nodup := Finset.sort_nodup _ _
  have hndm : (((seq_corpus_items t).sort (· ≤ ·)).map
      fun x => [({x} : Finset ℕ)]).Nodup :=
    hnd.map (fun a b h => by simpa using h)
  have hdef : ∀ tr ∈ t, ∀ c ∈ (((seq_corpus_items t).sort (· ≤ ·)).map
      fun x => [({x} : Finset ℕ)]), (is_subsequence tr c).isSome := by
    intro tr _ c hc
    obtain ⟨x, _, rfl⟩ := List.mem_map.mp hc
    rw [isSub_singleton]
    rfl
  rw [get_frequent_length_k_sequences,
    sequence_support_of_nodup t _ hndm hdef]
  refine ⟨_, rfl, fun c => ?_⟩
  simp only [List.map_map, List.mem_map, List.mem_filter, Function.comp,
    Finset.mem_sort, decide_eq_true_eq]
  constructor
  · rintro ⟨p, ⟨⟨x, hx, rfl⟩, hge⟩, rfl⟩
    exact ⟨x, hx, rfl, hge⟩
  · rintro ⟨x, hx, rfl, hge⟩
    exact ⟨([({x} : Finset ℕ)], seq_match_count t [{x}]),
      ⟨⟨x, hx, rfl⟩, hge⟩, rfl⟩

/-- `is_subsequence` on a two-singleton candidate takes the
total-item-count-2 branch: the two items must occupy adjacent positions. -/
theorem isSub_pair (tr : List (Finset ℕ)) (p x : ℕ) :
    is_subsequence tr [({p} : Finset ℕ), {x}] =
      some ((List.range tr.length).any fun i =>
        decide (p ∈ tr.getD i ∅) &&
        (decide (i + 1 < tr.length) && decide (x ∈ tr.getD (i + 1) ∅))) := by
  simp [is_subsequence, sequence_len, set_pop]

/-- Propositional form of `isSub_pair`. -/
theorem isSub_pair_true_iff (tr : List (Finset ℕ)) (p x : ℕ) :
    is_subsequence tr [({p} : Finset ℕ), {x}] = some true ↔
      ∃ i, i + 1 < tr.length ∧ p ∈ tr.getD i ∅ ∧ x ∈ tr.getD (i + 1) ∅ := by
  rw [isSub_pair, Option.some_inj]
  simp only [List.any_eq_true, List.mem_range, Bool.and_eq_true,
    decide_eq_true_eq]
  constructor
  · rintro ⟨i, -, hp, hlt, hx⟩
    exact ⟨i, hlt, hp, hx⟩
  · rintro ⟨i, hlt, hp, hx⟩
    exact ⟨i, by omega, hp, hlt, hx⟩

/-- Propositional form of `isSub_singleton`. -/
theorem isSub_singleton_true_iff (tr : List (Finset ℕ)) (x : ℕ) :
    is_subsequence tr [({x} : Finset ℕ)] = some true ↔ ∃ a ∈ tr, x ∈ a := by
  rw [isSub_singleton, Option.some_inj]
  simp [List.any_eq_true]

/-- ` is_prefix` against the single-singleton pattern `[{p}]` never crashes:
it succeeds at boundary `0` iff the head contains `p`. -/
theorem is_prefix_singleton_cons (p : ℕ) (a : Finset ℕ)
    (rest : List (Finset ℕ)) :
    is_prefix (a :: rest) [{p}] =
      if p ∈ a then some (true, some 0) else some (false, none) := by
  unfold is_prefix
  have hm : ((sequence_len [({p} : Finset ℕ)] : ℤ) - 1) = 0 := by
    simp [sequence_len]
  by_cases hc : sequence_len (a :: rest) = 0
  · have hpa : p ∉ a := by
      intro hmem
      have : 0 < a.card := Finset.card_pos.mpr ⟨p, hmem⟩
      have : a.card ≤ sequence_len (a :: rest) := by
        unfold sequence_len
        exact List.single_le_sum (fun y _ => Nat.zero_le y) _ (by simp)
      omega
    rw [if_pos (by rw [hm, hc]; norm_num), if_neg hpa]
  · rw [if_neg (by rw [hm]; omega)]
    rw [hm]
    by_cases hpa : p ∈ a
    · simp [prefix_eq_loop, py_index, Finset.singleton_subset_iff, hpa]
    · simp [prefix_eq_loop, py_index, Finset.singleton_subset_iff, hpa]

/-- One step of the projection scan with the prefix `[{p}]`: the first
position whose itemset contains `p` and whose suffix still holds an item
yields that suffix; otherwise the scan moves on. -/
theorem project_scan_singleton_cons (p : ℕ) (a : Finset ℕ)
    (rest : List (Finset ℕ)) :
    project_scan [{p}] (a :: rest) =
      if p ∈ a ∧ 0 < sequence_len rest then some (some rest)
      else project_scan [{p}] rest := by
  have hsuf : p ∈ a → get_suffix (a :: rest) [{p}] = some (some rest) := by
    intro hpa
    unfold get_suffix
    rw [is_prefix_singleton_cons, if_pos hpa]
    rfl
  rw [project_scan, is_prefix_singleton_cons]
  by_cases hpa : p ∈ a
  · rw [if_pos hpa]
    show (if true then
        match get_suffix (a :: rest) [{p}] with
        | none => none
        | some none => none
        | some (some s) =>
          if 0 < sequence_len s then some (some s)
          else project_scan [{p}] rest
      else project_scan [{p}] rest) = _
    rw [if_pos rfl, hsuf hpa]
    show (if 0 < sequence_len rest then some (some rest)
      else project_scan [{p}] rest) = _
    by_cases hr : 0 < sequence_len rest
    · rw [if_pos hr, if_pos ⟨hpa, hr⟩]
    · rw [if_neg hr, if_neg (by tauto)]
  · rw [if_neg hpa]
    show project_scan [{p}] rest = _
    rw [if_neg (by tauto)]

/-- The projection scan with a single-singleton prefix never crashes. -/
theorem project_scan_singleton_total (p : ℕ) :
    ∀ t : List (Finset ℕ), ∃ o, project_scan [{p}] t = some o := by
  intro t
  induction t with
  | nil => exact ⟨none, rfl⟩
  | cons a rest ih =>
    rw [project_scan_singleton_cons]
    by_cases h : p ∈ a ∧ 0 < sequence_len rest
    · exact ⟨some rest, by rw [if_pos h]⟩
    · obtain ⟨o, ho⟩ := ih
      exact ⟨o, by rw [if_neg h]; exact ho⟩

/-- A sequence one of whose itemsets holds an item has positive total
item-count. -/
theorem seq_len_pos_of_mem {rest : List (Finset ℕ)} {b : Finset ℕ}
    (hb : b ∈ rest) {c : ℕ} (hc : c ∈ b) : 0 < sequence_len rest := by
  have h1 : 0 < b.card := Finset.card_pos.mpr ⟨c, hc⟩
  have h2 : b.card ≤ sequence_len rest := by
    unfold sequence_len
    exact List.single_le_sum (fun y _ => Nat.zero_le y) _
      (List.mem_map_of_mem _ hb)
  omega

/-- A transaction that contains `[{p}, {x}]` (adjacent `p` then `x`)
contributes a suffix to the `[{p}]`-projection, and that suffix contains
`x` somewhere. -/
theorem pair_match_gives_projection (p x : ℕ) :
    ∀ t : List (Finset ℕ), is_subsequence t [({p} : Finset ℕ), {x}] = some true →
      ∃ s, project_scan [{p}] t = some (some s) ∧
        is_subsequence s [({x} : Finset ℕ)] = some true := by
  intro t
  induction t with
  | nil =>
    intro h
    rw [isSub_pair] at h
    simp at h
  | cons a rest ih =>
    intro h
    rw [isSub_pair_true_iff] at h
    obtain ⟨i, hlt, hp, hx⟩ := h
    have hi : i < rest.length := by
      simpa using hlt
    have hxr : x ∈ rest.getD i ∅ := by
      rwa [List.getD_cons_succ] at hx
    have hmem : rest.getD i ∅ ∈ rest := by
      rw [List.getD_eq_getElem rest ∅ hi]
      exact List.getElem_mem hi
    rw [project_scan_singleton_cons]
    by_cases hcond : p ∈ a ∧ 0 < sequence_len rest
    · rw [if_pos hcond]
      refine ⟨rest, rfl, ?_⟩
      rw [isSub_singleton_true_iff]
      exact ⟨rest.getD i ∅, hmem, hxr⟩
    · rw [if_neg hcond]
      cases i with
      | zero =>
        have hpa : p ∈ a := by
          simpa using hp
        have hpos : 0 < sequence_len rest := seq_len_pos_of_mem hmem hxr
        exact absurd ⟨hpa, hpos⟩ hcond
      | succ i' =>
        apply ih
        rw [isSub_pair_true_iff]
        refine ⟨i', by omega, ?_, hxr⟩
        rwa [List.getD_cons_succ] at hp

/-- The `[{p}]`-projection of a corpus exists (no crash), and scoring `[{x}]`
against it counts at least as many records as scoring `[{p}, {x}]` against
the original corpus. -/
theorem proj_count_ge (p x : ℕ) :
    ∀ ts : List (List (Finset ℕ)),
      ∃ proj, get_projected_transactions ts [{p}] = some proj ∧
        seq_match_count ts [{p}, {x}] ≤ seq_match_count proj [{x}] := by
  intro ts
  induction ts with
  | nil => exact ⟨[], rfl, le_refl 0⟩
  | cons t rest ih =>
    obtain ⟨proj, hproj, hle⟩ := ih
    obtain ⟨o, ho⟩ := project_scan_singleton_total p t
    cases o with
    | none =>
      refine ⟨proj, ?_, ?_⟩
      · rw [get_projected_transactions, ho, hproj]
      · have hnm : ¬ is_subsequence t [({p} : Finset ℕ), {x}] = some true := by
          intro hm
          obtain ⟨s, hs, -⟩ := pair_match_gives_projection p x t hm
          rw [ho] at hs
          exact Option.noConfusion (Option.some.inj hs)
        unfold seq_match_count at hle ⊢
        rw [List.countP_cons]
        simpa [hnm] using hle
    | some s =>
      refine ⟨s :: proj, ?_, ?_⟩
      · rw [get_projected_transactions, ho, hproj]
      · unfold seq_match_count at hle ⊢
        rw [List.countP_cons, List.countP_cons]
        by_cases hm : is_subsequence t [({p} : Finset ℕ), {x}] = some true
        · obtain ⟨s', hs', hx'⟩ := pair_match_gives_projection p x t hm
          rw [ho] at hs'
          obtain rfl : s = s' := Option.some.inj (Option.some.inj hs')
          simp only [hm, hx', decide_True]
          omega
        · simp [hm]
          exact le_trans hle (Nat.le_add_right _ _)

/-- C3 counterexample: on the corpus `[[{0}, {1}, {2}]]` with the frequent
prefix `[{0}]` and extension item `2`, scoring `[{2}]` against the projected
corpus gives support (count) `1`, but `sequence_support` of the full
candidate `[{0}, {2}]` against the original corpus gives `0` — direct
matching demands `2` immediately after `0`, while the projected score
accepts `2` anywhere in the suffix.  The claimed equality is false. -/
theorem C3_counterexample :
    get_projected_transactions [[{0}, {1}, {2}]] [{0}] = some [[{1}, {2}]] ∧
    sequence_support [[{1}, {2}]] [[{2}]] = some [([{2}], 1)] ∧
    sequence_support [[{0}, {1}, {2}]] [[{0}, {2}]] =
      some [([{0}, {2}], 0)] ∧
    (1 : ℕ) ≠ 0 := by
  refine ⟨by decide, by decide, by decide, by decide⟩

/-- C3 (amended): for every corpus, every single-itemset prefix `[{p}]` and
every extension item `x`, the projection never crashes and the support
(count) of `[{x}]` scored against the projected corpus is AT LEAST the
support of the full candidate `[{p}, {x}]` computed directly by
`sequence_support` on the original corpus.  (Equality fails in general —
see the counterexample — because `is_subsequence` matches the extension
only adjacently, while the projected scoring looks anywhere in the kept
suffix.) -/
theorem C3_projected_support_ge_direct (p x : ℕ)
    (ts : List (List (Finset ℕ))) :
    ∃ proj, get_projected_transactions ts [{p}] = some proj ∧
      sequence_support ts [[{p}, {x}]] =
        some [([{p}, {x}], seq_match_count ts [{p}, {x}])] ∧
      sequence_support proj [[{x}]] =
        some [([{x}], seq_match_count proj [{x}])] ∧
      seq_match_count ts [{p}, {x}] ≤ seq_match_count proj [{x}] := by
  obtain ⟨proj, hproj, hle⟩ := proj_count_ge p x ts
  refine ⟨proj, hproj, ?_, ?_, hle⟩
  · refine sequence_support_of_nodup ts [[{p}, {x}]] (by simp) ?_
    intro tr _ c hc
    obtain rfl : c = [({p} : Finset ℕ), {x}] := by simpa using hc
    rw [isSub_pair]
    rfl
  · refine sequence_support_of_nodup proj [[{x}]] (by simp) ?_
    intro tr _ c hc
    obtain rfl : c = [({x} : Finset ℕ)] := by simpa using hc
    rw [isSub_singleton]
    rfl
